import Mathlib

/-!
Verification of the knowledge-base core of `src/minesweeper/minesweeper.py`
(classes `Sentence` and `MinesweeperAI`), as a shallow embedding.

Cells are integer pairs; a `Sentence` is a finite set of cells plus an
integer count; the AI state carries `moves_made`, `mines`, `safes` and an
ordered `knowledge` list of sentences.  All operations below are direct
translations of the Python methods, including the quirks of the source:
`list.remove` deletes the first structurally equal element, and removing
while iterating skips the element after a removal.
-/

namespace MS

abbrev Cell : Type := ℤ × ℤ

/-- `Sentence(cells, count)` from the source: a set of board cells and a
count of how many of them are mines.  Equality is structural
(`__eq__` compares `cells` and `count`). -/
structure Sentence where
  cells : Finset Cell
  count : ℤ

instance : DecidableEq Sentence := fun s t =>
  decidable_of_iff (s.cells = t.cells ∧ s.count = t.count)
    (by cases s; cases t; simp)

/-- `Sentence.known_mines`: if `len(self.cells) == self.count` and
`self.count != 0`, every cell is a mine. -/
def Sentence.known_mines (s : Sentence) : Finset Cell :=
  if (s.cells.card : ℤ) = s.count ∧ s.count ≠ 0 then s.cells else ∅

/-- `Sentence.known_safes`: if `self.count == 0`, every cell is safe. -/
def Sentence.known_safes (s : Sentence) : Finset Cell :=
  if s.count = 0 then s.cells else ∅

/-- `Sentence.mark_mine`: if the cell is present, remove it and decrement
the count. -/
def Sentence.mark_mine (c : Cell) (s : Sentence) : Sentence :=
  if c ∈ s.cells then ⟨s.cells.erase c, s.count - 1⟩ else s

/-- `Sentence.mark_safe`: if the cell is present, remove it (count kept). -/
def Sentence.mark_safe (c : Cell) (s : Sentence) : Sentence :=
  if c ∈ s.cells then ⟨s.cells.erase c, s.count⟩ else s

/-- The mutable state of `MinesweeperAI`. -/
structure AIState where
  height : ℤ
  width : ℤ
  moves_made : Finset Cell
  mines : Finset Cell
  safes : Finset Cell
  knowledge : List Sentence

instance : DecidableEq AIState := fun s t =>
  decidable_of_iff
    (s.height = t.height ∧ s.width = t.width ∧ s.moves_made = t.moves_made ∧
      s.mines = t.mines ∧ s.safes = t.safes ∧ s.knowledge = t.knowledge)
    (by cases s; cases t; simp)

instance : DecidableEq (Option AIState) := fun o p =>
  match o, p with
  | none, none => isTrue rfl
  | none, some _ => isFalse (by simp)
  | some _, none => isFalse (by simp)
  | some a, some b => decidable_of_iff (a = b) (by simp)

/-- `MinesweeperAI.__init__(height, width)`. -/
def initAI (h w : ℤ) : AIState :=
  ⟨h, w, ∅, ∅, ∅, []⟩

/-- `MinesweeperAI.mark_mine`: add the cell to `self.mines` and apply
`Sentence.mark_mine` to every stored sentence. -/
def AIState.mark_mine (st : AIState) (c : Cell) : AIState :=
  { st with mines := insert c st.mines,
            knowledge := st.knowledge.map (Sentence.mark_mine c) }

/-- `MinesweeperAI.mark_safe`: add the cell to `self.safes` and apply
`Sentence.mark_safe` to every stored sentence. -/
def AIState.mark_safe (st : AIState) (c : Cell) : AIState :=
  { st with safes := insert c st.safes,
            knowledge := st.knowledge.map (Sentence.mark_safe c) }

/-- The bounds test `0 <= i < self.height and 0 <= j < self.width`. -/
def inBounds (h w : ℤ) (c : Cell) : Prop :=
  0 ≤ c.1 ∧ c.1 < h ∧ 0 ≤ c.2 ∧ c.2 < w

instance (h w : ℤ) (c : Cell) : Decidable (inBounds h w c) := by
  unfold inBounds; infer_instance

/-- All in-bounds cells of an `h × w` board. -/
def boardCells (h w : ℤ) : Finset Cell :=
  Finset.Icc 0 (h - 1) ×ˢ Finset.Icc 0 (w - 1)

/-- The 3×3 block scanned by the two nested `range(cell±1)` loops in
`add_knowledge` (the center cell included, exactly as in the source). -/
def box (c : Cell) : Finset Cell :=
  {(c.1 - 1, c.2 - 1), (c.1 - 1, c.2), (c.1 - 1, c.2 + 1),
   (c.1, c.2 - 1), (c.1, c.2), (c.1, c.2 + 1),
   (c.1 + 1, c.2 - 1), (c.1 + 1, c.2), (c.1 + 1, c.2 + 1)}

/-- The new sentence built by `add_knowledge` lines 203–216: neighbors that
are in bounds and not already known safe or mine, with the reported count
decremented once for every box cell already in `self.mines`. -/
def newSentence (st : AIState) (cell : Cell) (count : ℤ) : Sentence :=
  ⟨(box cell).filter
      (fun c => inBounds st.height st.width c ∧ c ∉ st.safes ∧ c ∉ st.mines),
   count - ((box cell) ∩ st.mines).card⟩

/-- Lines 197–219 of `add_knowledge`, before the `while True` loop:
record the move, mark the cell safe, append the new sentence. -/
def preAdd (st : AIState) (cell : Cell) (count : ℤ) : AIState :=
  let st0 := { st with moves_made := insert cell st.moves_made }
  let st1 := st0.mark_safe cell
  { st1 with knowledge := st1.knowledge ++ [newSentence st1 cell count] }

/-- The union of `sentence.known_mines()` over the knowledge list
(lines 231–232). -/
def minesUnion (L : List Sentence) : Finset Cell :=
  L.foldl (fun acc s => acc ∪ s.known_mines) ∅

/-- The union of `sentence.known_safes()` over the knowledge list
(lines 231–233). -/
def safesUnion (L : List Sentence) : Finset Cell :=
  L.foldl (fun acc s => acc ∪ s.known_safes) ∅

/-- Python's `list.remove(x)`: delete the first element structurally equal
to `x` (no-op when absent). -/
def removeFirstEq : List Sentence → Sentence → List Sentence
  | [], _ => []
  | a :: as, x => if a = x then as else a :: removeFirstEq as x

/-- Lines 247–250: `for sentence in self.knowledge: if len(sentence.cells)
== 0: self.knowledge.remove(sentence)`.  A Python `for` over a list keeps
an index that advances after every step even when `remove` shrank the
list, so the element following a removal is skipped; `remove` deletes the
first structurally equal element.  The `fuel` argument only makes the
recursion structural: the scan visits at most `L.length + 1` indices
(the list never grows during the scan), so the fuel used by `sweep`
never runs out (`sweepAux_fuel_irrel`). -/
def sweepAux : ℕ → List Sentence → ℕ → List Sentence
  | 0, L, _ => L
  | fuel + 1, L, i =>
    match L[i]? with
    | none => L
    | some x =>
      if x.cells = ∅ then sweepAux fuel (removeFirstEq L x) (i + 1)
      else sweepAux fuel L (i + 1)

/-- The whole empty-sentence removal scan, started at index 0. -/
def sweep (L : List Sentence) : List Sentence :=
  sweepAux (L.length + 1) L 0

/-- Lines 252–265: the subset-resolution double loop.  For each ordered
pair of structurally distinct sentences with `s1.cells ⊆ s2.cells` and
`s1.count ≤ s2.count`, the derived sentence is collected into
`new_knowledge` when it is not already in the knowledge list. -/
def inferNew (L : List Sentence) : List Sentence :=
  L.flatMap (fun s1 =>
    L.filterMap (fun s2 =>
      if s1.cells ⊆ s2.cells ∧ s1.count ≤ s2.count ∧ s1 ≠ s2 then
        if (⟨s2.cells \ s1.cells, s2.count - s1.count⟩ : Sentence) ∈ L then
          none
        else some ⟨s2.cells \ s1.cells, s2.count - s1.count⟩
      else none))

/-- `Sentence.mark_mine` applied once for each cell of `ms` (the loop
`for mine in mines: self.mark_mine(mine)` hits each sentence once per
mine).  The per-cell operations commute, so the iteration of the Python
set is realized as one simultaneous update; `markMines_eq_foldl` below
checks this against the sequential per-cell operation. -/
def Sentence.markMines (ms : Finset Cell) (s : Sentence) : Sentence :=
  ⟨s.cells \ ms, s.count - ((s.cells ∩ ms).card : ℤ)⟩

/-- `Sentence.mark_safe` applied once for each cell of `ss`. -/
def Sentence.markSafes (ss : Finset Cell) (s : Sentence) : Sentence :=
  ⟨s.cells \ ss, s.count⟩

/-- `MinesweeperAI.mark_mine` applied once for each cell of `ms`
(lines 236–239). -/
def AIState.markMines (st : AIState) (ms : Finset Cell) : AIState :=
  { st with mines := st.mines ∪ ms,
            knowledge := st.knowledge.map (Sentence.markMines ms) }

/-- `MinesweeperAI.mark_safe` applied once for each cell of `ss`
(lines 242–245). -/
def AIState.markSafes (st : AIState) (ss : Finset Cell) : AIState :=
  { st with safes := st.safes ∪ ss,
            knowledge := st.knowledge.map (Sentence.markSafes ss) }

/-- The marking phase of one pass (lines 236–245): mark every cell of the
mines union, then every cell of the safes union. -/
def passMarked (st : AIState) : AIState :=
  (st.markMines (minesUnion st.knowledge)).markSafes
    (safesUnion st.knowledge)

/-- One iteration of the `while True` loop of `add_knowledge`
(lines 221–271): compute the unions, mark, sweep empty sentences, extend
with the inferred sentences; the boolean is `new_info`. -/
def passBody (st : AIState) : AIState × Bool :=
  let mu := minesUnion st.knowledge
  let su := safesUnion st.knowledge
  let st2 := passMarked st
  let L3 := sweep st2.knowledge
  let buf := inferNew L3
  (⟨{ st2 with knowledge := L3 ++ buf },
    if mu ≠ ∅ ∨ su ≠ ∅ ∨ buf ≠ [] then true else false⟩)

/-- The `while True` loop with explicit fuel: `some` exactly when the loop
genuinely exits because a full pass produced no new information. -/
def runLoop : ℕ → AIState → Option AIState
  | 0, _ => none
  | n + 1, st =>
    let p := passBody st
    if p.2 then runLoop n p.1 else some p.1

/-- `MinesweeperAI.add_knowledge(cell, count)`, with fuel for the
fixed-point loop. -/
def add_knowledge (fuel : ℕ) (st : AIState) (cell : Cell) (count : ℤ) :
    Option AIState :=
  runLoop fuel (preAdd st cell count)

/-- A sequence of `add_knowledge` calls, each with the same fuel. -/
def runCalls (fuel : ℕ) : AIState → List (Cell × ℤ) → Option AIState
  | st, [] => some st
  | st, (c, k) :: rest =>
    (add_knowledge fuel st c k).bind (fun st1 => runCalls fuel st1 rest)

/-!
## Concrete runs used by counterexamples

Each `st…` value below is the exact state in which the corresponding
sequence of `add_knowledge` calls leaves a fresh `MinesweeperAI`; the
`runCalls … = some …` conjuncts certify both the final state and that
every fixed-point loop in the run genuinely reached a pass with no new
information (`runLoop` yields `none` on fuel exhaustion).
-/

/-- Final state of the two calls `(0,0)↦2`, `(1,1)↦0` on a fresh 2×2 AI
(an observation pair consistent with no actual board). -/
def stA : AIState :=
  ⟨2, 2, {(0, 0), (1, 1)}, {(0, 1), (1, 0)},
    {(0, 0), (0, 1), (1, 0), (1, 1)}, []⟩

/-- State after one call `(0,0)↦1` on a fresh 3×3 AI. -/
def stB1 : AIState :=
  ⟨3, 3, {(0, 0)}, ∅, {(0, 0)}, [⟨{(0, 1), (1, 0), (1, 1)}, 1⟩]⟩

/-- State after calling `(0,0)↦1` twice on a fresh 3×3 AI. -/
def stB2 : AIState :=
  ⟨3, 3, {(0, 0)}, ∅, {(0, 0)},
    [⟨{(0, 1), (1, 0), (1, 1)}, 1⟩, ⟨{(0, 1), (1, 0), (1, 1)}, 1⟩]⟩

/-- Final state of the five calls `(0,2)↦1` (four times) and `(0,0)↦1` on
a fresh 1×4 AI — all five observations are consistent with the 1×4 board
whose only mine is `(0,1)`. -/
def stC : AIState :=
  ⟨1, 4, {(0, 2), (0, 0)}, {(0, 1)}, {(0, 2), (0, 3), (0, 0)}, [⟨∅, 0⟩]⟩

/-- State after one call `(0,0)↦1` on a fresh 1×2 AI: the neighbor
`(0,1)` is deduced to be a mine. -/
def stD1 : AIState :=
  ⟨1, 2, {(0, 0)}, {(0, 1)}, {(0, 0)}, []⟩

/-- State after the further call `(0,1)↦0` on `stD1`. -/
def stD2 : AIState :=
  ⟨1, 2, {(0, 0), (0, 1)}, {(0, 1)}, {(0, 0), (0, 1)}, []⟩

/-- State after one call `(0,0)↦2` on a fresh 1×3 AI. -/
def stE : AIState :=
  ⟨1, 3, {(0, 0)}, ∅, {(0, 0)}, [⟨{(0, 1)}, 2⟩]⟩

/-!
## Observation disciplines and reachable states
-/

/-- `Minesweeper.nearby_mines` for the board with mine set `M` on an
`h × w` grid: the number of in-bounds cells within one row and column of
`cell` (the cell itself excluded) that carry a mine. -/
def nearby_mines (h w : ℤ) (M : Finset Cell) (cell : Cell) : ℤ :=
  (((box cell).erase cell).filter (fun c => inBounds h w c ∧ c ∈ M)).card

/-- An observation as produced by a real game: the revealed cell is
in bounds and not a mine, and the reported count is the board's
`nearby_mines`. -/
def consistentObs (M : Finset Cell) (st : AIState) (cell : Cell)
    (count : ℤ) : Prop :=
  cell ∉ M ∧ inBounds st.height st.width cell ∧
    count = nearby_mines st.height st.width M cell

/-- An observation about which nothing is assumed except that the
revealed cell is in bounds. -/
def inBoundsObs (st : AIState) (cell : Cell) (_count : ℤ) : Prop :=
  inBounds st.height st.width cell

instance (M : Finset Cell) (st : AIState) (cell : Cell) (count : ℤ) :
    Decidable (consistentObs M st cell count) := by
  unfold consistentObs; infer_instance

instance (st : AIState) (cell : Cell) (count : ℤ) :
    Decidable (inBoundsObs st cell count) := by
  unfold inBoundsObs; infer_instance

/-- States reachable from a fresh `MinesweeperAI` by `add_knowledge`
calls whose observations satisfy `P`: `add` performs the phase before
the fixed-point loop and `pass` one iteration of it, so every state the
AI passes through — in particular the state returned by each call — is
reachable. -/
inductive Reach (P : AIState → Cell → ℤ → Prop) : AIState → Prop
  | init (h w : ℤ) : Reach P (initAI h w)
  | add (st : AIState) (cell : Cell) (count : ℤ) :
      Reach P st → P st cell count → Reach P (preAdd st cell count)
  | pass (st : AIState) : Reach P st → Reach P ((passBody st).1)

/-- States reachable from a fresh `MinesweeperAI` by arbitrary
`add_knowledge`, `mark_mine` and `mark_safe` calls (no assumption at all
on the observations). -/
inductive ReachOps : AIState → Prop
  | init (h w : ℤ) : ReachOps (initAI h w)
  | add (st : AIState) (cell : Cell) (count : ℤ) :
      ReachOps st → ReachOps (preAdd st cell count)
  | pass (st : AIState) : ReachOps st → ReachOps ((passBody st).1)
  | mine (st : AIState) (c : Cell) : ReachOps st → ReachOps (st.mark_mine c)
  | safe (st : AIState) (c : Cell) : ReachOps st → ReachOps (st.mark_safe c)

/-- The soundness invariant tying an AI state to the board `M` it is
observing: known mines are real in-bounds mines, known safes are real
non-mines, and every stored sentence counts exactly its true mines,
mentions only in-bounds cells, and mentions no classified cell. -/
def InvC (M : Finset Cell) (st : AIState) : Prop :=
  (∀ c ∈ st.mines, c ∈ M ∧ c ∈ boardCells st.height st.width) ∧
  (∀ c ∈ st.safes, c ∉ M) ∧
  (∀ s ∈ st.knowledge,
    ((s.cells ∩ M).card : ℤ) = s.count ∧
    ∀ c ∈ s.cells,
      c ∈ boardCells st.height st.width ∧ c ∉ st.mines ∧ c ∉ st.safes)

/-- Classified cells never occur in stored sentences (claim C4's
property, as a predicate on states). -/
def Inv4 (st : AIState) : Prop :=
  ∀ s ∈ st.knowledge, ∀ c ∈ s.cells, c ∉ st.mines ∧ c ∉ st.safes

/-- Everything the AI tracks stays within board bounds (claim C10's
property, as a predicate on states). -/
def InvB (st : AIState) : Prop :=
  (∀ s ∈ st.knowledge, ∀ c ∈ s.cells, c ∈ boardCells st.height st.width) ∧
  (∀ c ∈ st.mines, c ∈ boardCells st.height st.width) ∧
  (∀ c ∈ st.safes, c ∈ boardCells st.height st.width)

/-- The number of structurally empty-celled sentences in a list. -/
def emptyCount (L : List Sentence) : ℕ :=
  L.countP (fun s => decide (s.cells = ∅))

/-- The distinct nonempty cell sets appearing in a knowledge list. -/
def cellSetsNE (L : List Sentence) : Finset (Finset Cell) :=
  ((L.map Sentence.cells).toFinset).erase ∅

/-- Termination measure for the fixed-point loop: unclassified in-bounds
cells weighted above the number of distinct nonempty constraint cell
sets still missing from the knowledge list. -/
def passMeasure (st : AIState) : ℕ :=
  ((boardCells st.height st.width) \ (st.mines ∪ st.safes)).card *
      (2 ^ (boardCells st.height st.width).card + 1) +
    (2 ^ (boardCells st.height st.width).card -
      (cellSetsNE st.knowledge).card)

/-!
## Helper lemmas
-/

theorem removeFirstEq_length_le (L : List Sentence) (x : Sentence) :
    (removeFirstEq L x).length ≤ L.length := by
  induction L with
  | nil => simp [removeFirstEq]
  | cons a as ih =>
    by_cases h : a = x
    · simp [removeFirstEq, h]
    · simp only [removeFirstEq, if_neg h, List.length_cons]
      omega

/-- Any fuel of at least `L.length + 1 - i` gives the same scan result,
so the fuel in `sweep` is irrelevant: it models the unbounded loop. -/
theorem sweepAux_fuel_irrel (f g : ℕ) (L : List Sentence) (i : ℕ)
    (hf : L.length + 1 ≤ f + i) (hg : L.length + 1 ≤ g + i) :
    sweepAux f L i = sweepAux g L i := by
  induction f generalizing g L i with
  | zero =>
    cases g with
    | zero => rfl
    | succ g =>
      simp only [sweepAux]
      have : L[i]? = none := List.getElem?_eq_none (by omega)
      simp [this]
  | succ f ih =>
    cases g with
    | zero =>
      simp only [sweepAux]
      have : L[i]? = none := List.getElem?_eq_none (by omega)
      simp [this]
    | succ g =>
      simp only [sweepAux]
      cases hx : L[i]? with
      | none => rfl
      | some x =>
        have hi : i < L.length := (List.getElem?_eq_some.mp hx).1
        by_cases hc : x.cells = ∅
        · simp only [hc, if_pos rfl]
          have hr := removeFirstEq_length_le L x
          exact ih g (removeFirstEq L x) (i + 1) (by omega) (by omega)
        · simp only [if_neg hc]
          exact ih g L (i + 1) (by omega) (by omega)

/-- Membership in the subset-resolution buffer, characterized. -/
theorem mem_inferNew (L : List Sentence) (t : Sentence) :
    t ∈ inferNew L ↔
      ∃ s1 s2, s1 ∈ L ∧ s2 ∈ L ∧ s1.cells ⊆ s2.cells ∧
        s1.count ≤ s2.count ∧ s1 ≠ s2 ∧
        t = ⟨s2.cells \ s1.cells, s2.count - s1.count⟩ ∧ t ∉ L := by
  simp only [inferNew, List.mem_flatMap, List.mem_filterMap]
  constructor
  · rintro ⟨s1, hs1, s2, hs2, hopt⟩
    by_cases h : s1.cells ⊆ s2.cells ∧ s1.count ≤ s2.count ∧ s1 ≠ s2
    · rw [if_pos h] at hopt
      by_cases h2 :
          (⟨s2.cells \ s1.cells, s2.count - s1.count⟩ : Sentence) ∈ L
      · rw [if_pos h2] at hopt
        cases hopt
      · rw [if_neg h2] at hopt
        obtain rfl := Option.some_injective _ hopt
        exact ⟨s1, s2, hs1, hs2, h.1, h.2.1, h.2.2, rfl, h2⟩
    · rw [if_neg h] at hopt
      cases hopt
  · rintro ⟨s1, s2, hs1, hs2, hsub, hcnt, hne, rfl, hnot⟩
    refine ⟨s1, hs1, s2, hs2, ?_⟩
    rw [if_pos ⟨hsub, hcnt, hne⟩, if_neg hnot]

/-- The knowledge list after one pass is the swept list extended by the
subset-resolution buffer (line 268). -/
theorem passBody_knowledge (st : AIState) :
    (passBody st).1.knowledge =
      sweep (passMarked st).knowledge ++
        inferNew (sweep (passMarked st).knowledge) := rfl

/-- An element surviving `removeFirstEq` was in the original list. -/
theorem mem_of_mem_removeFirstEq (L : List Sentence) (x s : Sentence)
    (hs : s ∈ removeFirstEq L x) : s ∈ L := by
  induction L with
  | nil => exact hs
  | cons a as ih =>
    by_cases hax : a = x
    · simp only [removeFirstEq, if_pos hax] at hs
      exact List.mem_cons_of_mem a hs
    · simp only [removeFirstEq, if_neg hax, List.mem_cons] at hs
      rcases hs with h | h
      · exact h ▸ List.mem_cons_self a as
      · exact List.mem_cons_of_mem a (ih h)

/-- An element not removed: `removeFirstEq` only deletes a copy of `x`. -/
theorem mem_removeFirstEq_of_ne (L : List Sentence) (x s : Sentence)
    (hs : s ∈ L) (hne : s ≠ x) : s ∈ removeFirstEq L x := by
  induction L with
  | nil => exact hs
  | cons a as ih =>
    by_cases hax : a = x
    · simp only [removeFirstEq, if_pos hax]
      rcases List.mem_cons.mp hs with h | h
      · exact absurd (h.trans hax) hne
      · exact h
    · simp only [removeFirstEq, if_neg hax, List.mem_cons]
      rcases List.mem_cons.mp hs with h | h
      · exact Or.inl h
      · exact Or.inr (ih h)

/-- Scan members come from the original list. -/
theorem mem_of_mem_sweepAux (f : ℕ) (L : List Sentence) (i : ℕ)
    (s : Sentence) (hs : s ∈ sweepAux f L i) : s ∈ L := by
  induction f generalizing L i with
  | zero => exact hs
  | succ f ih =>
    simp only [sweepAux] at hs
    cases hx : L[i]? with
    | none => rw [hx] at hs; exact hs
    | some x =>
      rw [hx] at hs
      dsimp only at hs
      by_cases hc : x.cells = ∅
      · rw [if_pos hc] at hs
        exact mem_of_mem_removeFirstEq L x s (ih (removeFirstEq L x) (i + 1) hs)
      · rw [if_neg hc] at hs
        exact ih L (i + 1) hs

/-- Scan members come from the original list (scan started at 0). -/
theorem mem_of_mem_sweep (L : List Sentence) (s : Sentence)
    (hs : s ∈ sweep L) : s ∈ L :=
  mem_of_mem_sweepAux _ L 0 s hs

/-- A sentence with nonempty cells survives the scan: only structurally
empty sentences are ever removed. -/
theorem mem_sweepAux_of_nonempty (f : ℕ) (L : List Sentence) (i : ℕ)
    (s : Sentence) (hs : s ∈ L) (hne : s.cells ≠ ∅) :
    s ∈ sweepAux f L i := by
  induction f generalizing L i with
  | zero => exact hs
  | succ f ih =>
    simp only [sweepAux]
    cases hx : L[i]? with
    | none => exact hs
    | some x =>
      dsimp only
      by_cases hc : x.cells = ∅
      · rw [if_pos hc]
        refine ih (removeFirstEq L x) (i + 1) ?_
        exact mem_removeFirstEq_of_ne L x s hs (by
          intro h
          rw [h] at hne
          exact hne hc)
      · rw [if_neg hc]
        exact ih L (i + 1) hs

/-!
## Counterexample theorems
-/

/-- Claim C1 (counterexample): after the call sequence `(0,0)↦2`,
`(1,1)↦0` on a fresh 2×2 AI — both calls return normally — the sets
`self.mines` and `self.safes` both contain `(0,1)` and `(1,0)`, so they
are not disjoint.  (The two reported counts are mutually inconsistent:
no mine placement realizes both.) -/
theorem claim1_counterexample :
    runCalls 4 (initAI 2 2) [((0, 0), 2), ((1, 1), 0)] = some stA ∧
      stA.mines ∩ stA.safes ≠ ∅ := by decide

/-- Claim C5 (counterexample): after `add_knowledge((0,0), 1)` on a fresh
3×3 AI, the cell `(0,0)` is in `moves_made`; calling
`add_knowledge((0,0), 1)` again is neither a no-op nor a failure: it
returns normally and appends a second copy of the sentence. -/
theorem claim5_counterexample :
    runCalls 4 (initAI 3 3) [((0, 0), 1)] = some stB1 ∧
      (0, 0) ∈ stB1.moves_made ∧
      add_knowledge 4 stB1 (0, 0) 1 = some stB2 ∧
      stB2 ≠ stB1 := by decide

/-- Claim C6 (counterexample): after calling `add_knowledge((0,0), 1)`
twice on a fresh 3×3 AI, the knowledge list holds two structurally equal
sentences (`{(0,1),(1,0),(1,1)} = 1` twice): line 219 appends the new
observation sentence without any duplicate check. -/
theorem claim6_counterexample :
    runCalls 4 (initAI 3 3) [((0, 0), 1), ((0, 0), 1)] = some stB2 ∧
      ¬ stB2.knowledge.Nodup := by decide

/-- Claim C7 (counterexample): on a fresh 1×4 AI, the five calls
`(0,2)↦1` (four times) then `(0,0)↦1` — all consistent with the board
whose only mine is `(0,1)` — terminate with the sentence `∅ = 0` still
stored: in the final pass the removal loop deletes the first of two
equal empty sentences and the list shift makes it skip the second. -/
theorem claim7_counterexample :
    runCalls 5 (initAI 1 4)
        [((0, 2), 1), ((0, 2), 1), ((0, 2), 1), ((0, 2), 1), ((0, 0), 1)] =
      some stC ∧ (⟨∅, 0⟩ : Sentence) ∈ stC.knowledge := by decide

/-- Claim C8 (counterexample): in state `stD1` (reached by one ordinary
call, with `(0,1)` a known mine), the call `add_knowledge((0,1), 0)`
builds the sentence `∅ = -1` — the adjusted count went negative — stores
it in the knowledge list, and returns normally; nothing is surfaced to
the caller. -/
theorem claim8_counterexample :
    runCalls 4 (initAI 1 2) [((0, 0), 1)] = some stD1 ∧
      (preAdd stD1 (0, 1) 0).knowledge = [⟨∅, -1⟩] ∧
      add_knowledge 4 stD1 (0, 1) 0 = some stD2 := by decide

/-- Claim C9 (counterexample): the single call `add_knowledge((0,0), 2)`
on a fresh 1×3 AI returns with the sentence `{(0,1)} = 2` stored, whose
count exceeds the size of its cell set. -/
theorem claim9_counterexample :
    runCalls 4 (initAI 1 3) [((0, 0), 2)] = some stE ∧
      (⟨{(0, 1)}, 2⟩ : Sentence) ∈ stE.knowledge ∧
      ((⟨{(0, 1)}, 2⟩ : Sentence).cells.card : ℤ) <
        (⟨{(0, 1)}, 2⟩ : Sentence).count := by decide

/-!
## Local structure of one pass
-/

theorem markMines_empty (st : AIState) : st.markMines ∅ = st := by
  have hmap : st.knowledge.map (Sentence.markMines ∅) = st.knowledge := by
    calc st.knowledge.map (Sentence.markMines ∅)
        = st.knowledge.map id :=
          List.map_congr_left (fun s _ => by
            cases s; simp [Sentence.markMines])
      _ = st.knowledge := List.map_id st.knowledge
  cases st
  simp [AIState.markMines, hmap]

theorem markSafes_empty (st : AIState) : st.markSafes ∅ = st := by
  have hmap : st.knowledge.map (Sentence.markSafes ∅) = st.knowledge := by
    calc st.knowledge.map (Sentence.markSafes ∅)
        = st.knowledge.map id :=
          List.map_congr_left (fun s _ => by
            cases s; simp [Sentence.markSafes])
      _ = st.knowledge := List.map_id st.knowledge
  cases st
  simp [AIState.markSafes, hmap]

/-- When a pass reports no new information, nothing fired: both unions
were empty and subset resolution produced no sentence. -/
theorem passBody_false (st : AIState) (h : (passBody st).2 = false) :
    minesUnion st.knowledge = ∅ ∧ safesUnion st.knowledge = ∅ ∧
      inferNew (sweep (passMarked st).knowledge) = [] := by
  by_cases hP :
      minesUnion st.knowledge ≠ ∅ ∨ safesUnion st.knowledge ≠ ∅ ∨
        inferNew (sweep (passMarked st).knowledge) ≠ []
  · exfalso
    have : (passBody st).2 = true := by
      simp only [passBody, if_pos hP]
    rw [h] at this
    cases this
  · push_neg at hP
    exact ⟨hP.1, hP.2.1, hP.2.2⟩

/-- Removing an empty-celled element decreases the empty count by one. -/
theorem emptyCount_removeFirstEq (L : List Sentence) (x : Sentence)
    (hx : x ∈ L) (hemp : x.cells = ∅) :
    emptyCount L = emptyCount (removeFirstEq L x) + 1 := by
  induction L with
  | nil => cases hx
  | cons a as ih =>
    by_cases hax : a = x
    · simp only [removeFirstEq, if_pos hax, emptyCount, List.countP_cons]
      rw [hax]
      simp [hemp, emptyCount]
    · rcases List.mem_cons.mp hx with h | h
      · exact absurd h.symm hax
      · simp only [removeFirstEq, if_neg hax, emptyCount, List.countP_cons]
        have := ih h
        simp only [emptyCount] at this
        omega

/-- A scan started below every remaining empty sentence, with at most one
empty sentence in the list, removes it: nothing empty survives. -/
theorem sweepAux_no_empty (f : ℕ) (L : List Sentence) (i : ℕ)
    (hfuel : L.length + 1 ≤ f + i)
    (hpre : ∀ j < i, ∀ s : Sentence, L[j]? = some s → s.cells ≠ ∅)
    (hcnt : emptyCount L ≤ 1) :
    ∀ s ∈ sweepAux f L i, s.cells ≠ ∅ := by
  induction f generalizing L i with
  | zero =>
    intro s hs
    simp only [sweepAux] at hs
    obtain ⟨n, hn, hget⟩ := List.getElem_of_mem hs
    exact hpre n (by omega) s (by rw [List.getElem?_eq_getElem hn, hget])
  | succ f ih =>
    intro s hs
    simp only [sweepAux] at hs
    cases hx : L[i]? with
    | none =>
      rw [hx] at hs
      dsimp only at hs
      have hlen : L.length ≤ i := by
        cases Nat.lt_or_ge i L.length with
        | inl hlt => rw [List.getElem?_eq_getElem hlt] at hx; cases hx
        | inr hge => exact hge
      obtain ⟨n, hn, hget⟩ := List.getElem_of_mem hs
      exact hpre n (by omega) s (by rw [List.getElem?_eq_getElem hn, hget])
    | some x =>
      rw [hx] at hs
      dsimp only at hs
      have hxL : x ∈ L := by
        have hi : i < L.length := (List.getElem?_eq_some.mp hx).1
        have := List.getElem?_eq_getElem hi
        rw [hx] at this
        exact (Option.some_injective _ this.symm) ▸ List.getElem_mem hi
      by_cases hc : x.cells = ∅
      · rw [if_pos hc] at hs
        have hzero : emptyCount (removeFirstEq L x) = 0 := by
          have := emptyCount_removeFirstEq L x hxL hc
          omega
        have hmem := mem_of_mem_sweepAux f (removeFirstEq L x) (i + 1) s hs
        have := List.countP_eq_zero.mp hzero s hmem
        simpa using this
      · rw [if_neg hc] at hs
        refine ih L (i + 1) (by omega) ?_ hcnt s hs
        intro j hj t hget
        cases Nat.lt_or_ge j i with
        | inl hlt => exact hpre j hlt t hget
        | inr hge =>
          have hji : j = i := by omega
          rw [hji, hx] at hget
          obtain rfl := Option.some_injective _ hget.symm
          exact hc

/-!
## Claim C2 — subset resolution
-/

/-- Claim C2: whenever the fixed-point loop examines two structurally
distinct stored sentences `s1`, `s2` (members of the swept knowledge
list of the current pass) with `s1.cells ⊆ s2.cells` and
`s1.count ≤ s2.count`, and no structurally equal sentence is already
stored, the derived sentence `(s2.cells − s1.cells, s2.count − s1.count)`
is in the knowledge list after the pass; and every sentence produced by
subset resolution has a non-negative count. -/
theorem claim2_subset_resolution (st : AIState) (s1 s2 : Sentence)
    (h1 : s1 ∈ sweep (passMarked st).knowledge)
    (h2 : s2 ∈ sweep (passMarked st).knowledge)
    (hsub : s1.cells ⊆ s2.cells) (hcnt : s1.count ≤ s2.count)
    (hne : s1 ≠ s2)
    (hnew : (⟨s2.cells \ s1.cells, s2.count - s1.count⟩ : Sentence) ∉
      sweep (passMarked st).knowledge) :
    (⟨s2.cells \ s1.cells, s2.count - s1.count⟩ : Sentence) ∈
        (passBody st).1.knowledge ∧
      ∀ t ∈ inferNew (sweep (passMarked st).knowledge), 0 ≤ t.count := by
  constructor
  · rw [passBody_knowledge]
    refine List.mem_append_right _ ?_
    exact (mem_inferNew _ _).mpr ⟨s1, s2, h1, h2, hsub, hcnt, hne, rfl, hnew⟩
  · intro t ht
    obtain ⟨u1, u2, _, _, _, hle, _, rfl, _⟩ := (mem_inferNew _ _).mp ht
    simp only
    omega

/-- Claim C2 (witness): a concrete pass on the knowledge list
`[{(0,1),(1,1)} = 1, {(0,1),(1,1),(2,1)} = 2]` derives `{(2,1)} = 1`. -/
theorem claim2_witness :
    (⟨{((2 : ℤ), (1 : ℤ))}, 1⟩ : Sentence) ∈
        (passBody ⟨3, 3, ∅, ∅, ∅,
          [⟨{(0, 1), (1, 1)}, 1⟩, ⟨{(0, 1), (1, 1), (2, 1)}, 2⟩]⟩).1.knowledge ∧
      ∀ t ∈ inferNew (sweep (passMarked ⟨3, 3, ∅, ∅, ∅,
          [⟨{(0, 1), (1, 1)}, 1⟩,
            ⟨{(0, 1), (1, 1), (2, 1)}, 2⟩]⟩).knowledge), 0 ≤ t.count := by
  have h := claim2_subset_resolution
    ⟨3, 3, ∅, ∅, ∅, [⟨{(0, 1), (1, 1)}, 1⟩, ⟨{(0, 1), (1, 1), (2, 1)}, 2⟩]⟩
    ⟨{(0, 1), (1, 1)}, 1⟩ ⟨{(0, 1), (1, 1), (2, 1)}, 2⟩
    (by decide) (by decide) (by decide) (by decide) (by decide) (by decide)
  exact h

/-!
## Claims C5, C6, C7, C8 — amended statements
-/

theorem preAdd_moves_irrel (st : AIState) (M : Finset Cell) (cell : Cell)
    (count : ℤ) :
    preAdd { st with moves_made := M } cell count =
      { preAdd st cell count with moves_made := insert cell M } := by
  cases st; rfl

theorem passBody_moves_irrel (st : AIState) (M : Finset Cell) :
    passBody { st with moves_made := M } =
      ({ (passBody st).1 with moves_made := M }, (passBody st).2) := by
  cases st; rfl

theorem runLoop_moves_irrel (fuel : ℕ) (st : AIState) (M : Finset Cell) :
    runLoop fuel { st with moves_made := M } =
      (runLoop fuel st).map (fun s => { s with moves_made := M }) := by
  induction fuel generalizing st with
  | zero => rfl
  | succ n ih =>
    simp only [runLoop, passBody_moves_irrel]
    cases hb : (passBody st).2 with
    | false => simp
    | true => simpa using ih (passBody st).1

/-- Claim C5 (amended): `add_knowledge` never consults `moves_made`.
Calling it in a state where the observed cell is already recorded gives
exactly the same result as calling it without the record — the
observation is integrated again in full, not rejected.  (The
counterexample shows such a repeated call really changes state.) -/
theorem claim5_amended (fuel : ℕ) (st : AIState) (cell : Cell)
    (count : ℤ) :
    add_knowledge fuel { st with moves_made := insert cell st.moves_made }
        cell count =
      (add_knowledge fuel st cell count).map
        (fun s => { s with moves_made := insert cell st.moves_made }) := by
  unfold add_knowledge
  rw [preAdd_moves_irrel, runLoop_moves_irrel]
  cases runLoop fuel (preAdd st cell count) with
  | none => rfl
  | some s => simp [Finset.insert_idem]

/-- Claim C6 (amended): the only duplicate protection in the source is
the membership test of line 262: a sentence produced by subset
resolution is never structurally equal to a sentence stored at the time
the pass examined the list.  (Duplicates still arise: the observation
sentence of line 219 is appended unconditionally — see the
counterexample — and two buffer entries of one pass are not compared
with each other.) -/
theorem claim6_amended (L : List Sentence) (t : Sentence)
    (ht : t ∈ inferNew L) : t ∉ L := by
  obtain ⟨_, _, _, _, _, _, _, _, hnot⟩ := (mem_inferNew L t).mp ht
  exact hnot

/-- Claim C6 (amended, witness): concrete instantiation of the buffer
membership guard. -/
theorem claim6_amended_witness :
    (⟨{((2 : ℤ), (1 : ℤ))}, 1⟩ : Sentence) ∉
      [(⟨{(0, 1), (1, 1)}, 1⟩ : Sentence),
        ⟨{(0, 1), (1, 1), (2, 1)}, 2⟩] :=
  claim6_amended _ _ (by decide)

/-- Claim C7 (amended): when `add_knowledge` returns after a final pass
whose knowledge list held at most one empty-celled sentence, no
empty-celled sentence remains.  (With two or more, the removal loop can
skip one — see the counterexample.) -/
theorem claim7_amended (st : AIState)
    (hfix : (passBody st).2 = false)
    (hone : emptyCount st.knowledge ≤ 1) :
    ∀ s ∈ (passBody st).1.knowledge, s.cells ≠ ∅ := by
  obtain ⟨hmu, hsu, hbuf⟩ := passBody_false st hfix
  intro s hs
  rw [passBody_knowledge, hbuf, List.append_nil] at hs
  have hmark : passMarked st = st := by
    unfold passMarked
    rw [hmu, hsu, markMines_empty, markSafes_empty]
  rw [hmark] at hs
  exact sweepAux_no_empty (st.knowledge.length + 1) st.knowledge 0
    (by omega) (fun j hj => absurd hj (Nat.not_lt_zero j)) hone s hs

/-- Claim C7 (amended, witness): a pass on the knowledge list
`[{(0,0),(1,1)} = 1, ∅ = 5]` (one empty sentence) reports no new
information, purges the empty sentence, and keeps the nonempty one —
whose cell set is indeed nonempty. -/
theorem claim7_amended_witness :
    (⟨{(0, 0), (1, 1)}, 1⟩ : Sentence) ∈ (passBody
        ⟨3, 3, ∅, ∅, ∅,
          [⟨{(0, 0), (1, 1)}, 1⟩, ⟨∅, 5⟩]⟩).1.knowledge ∧
      (⟨{(0, 0), (1, 1)}, 1⟩ : Sentence).cells ≠ ∅ :=
  ⟨by decide,
    claim7_amended ⟨3, 3, ∅, ∅, ∅, [⟨{(0, 0), (1, 1)}, 1⟩, ⟨∅, 5⟩]⟩
      (by decide) (by decide) ⟨{(0, 0), (1, 1)}, 1⟩ (by decide)⟩

/-- Claim C8 (amended): the neighbor-processing phase performs no check
on the adjusted count: it always appends exactly one sentence, whose
count is the reported count minus the number of box cells already known
to be mines — negative or not — and no error is ever surfaced.  (The
counterexample stores `∅ = -1` and returns normally.) -/
theorem claim8_amended (st : AIState) (cell : Cell) (count : ℤ) :
    (preAdd st cell count).knowledge.length = st.knowledge.length + 1 ∧
      ((preAdd st cell count).knowledge.getLast?).map Sentence.count =
        some (count - (((box cell) ∩ st.mines).card : ℤ)) := by
  constructor
  · simp [preAdd, AIState.mark_safe]
  · simp [preAdd, AIState.mark_safe, newSentence]

/-!
## Unions and basic characterizations
-/

theorem foldl_union_mem (f : Sentence → Finset Cell) (L : List Sentence)
    (A : Finset Cell) (c : Cell) :
    c ∈ L.foldl (fun acc s => acc ∪ f s) A ↔ c ∈ A ∨ ∃ s ∈ L, c ∈ f s := by
  induction L generalizing A with
  | nil => simp
  | cons a as ih =>
    simp only [List.foldl_cons, ih, Finset.mem_union, List.mem_cons]
    constructor
    · rintro (⟨h | h⟩ | ⟨s, hs, hc⟩)
      · exact Or.inl h
      · exact Or.inr ⟨a, Or.inl rfl, h⟩
      · exact Or.inr ⟨s, Or.inr hs, hc⟩
    · rintro (h | ⟨s, hs | hs, hc⟩)
      · exact Or.inl (Or.inl h)
      · exact Or.inl (Or.inr (hs ▸ hc))
      · exact Or.inr ⟨s, hs, hc⟩

theorem mem_minesUnion (L : List Sentence) (c : Cell) :
    c ∈ minesUnion L ↔ ∃ s ∈ L, c ∈ s.known_mines := by
  simp [minesUnion, foldl_union_mem]

theorem mem_safesUnion (L : List Sentence) (c : Cell) :
    c ∈ safesUnion L ↔ ∃ s ∈ L, c ∈ s.known_safes := by
  simp [safesUnion, foldl_union_mem]

theorem mem_known_mines (s : Sentence) (c : Cell)
    (h : c ∈ s.known_mines) :
    c ∈ s.cells ∧ (s.cells.card : ℤ) = s.count ∧ s.count ≠ 0 := by
  unfold Sentence.known_mines at h
  split_ifs at h with hc
  · exact ⟨h, hc.1, hc.2⟩
  · cases h

theorem mem_known_safes (s : Sentence) (c : Cell)
    (h : c ∈ s.known_safes) : c ∈ s.cells ∧ s.count = 0 := by
  unfold Sentence.known_safes at h
  split_ifs at h with hc
  · exact ⟨h, hc⟩
  · cases h

theorem mem_boardCells (h w : ℤ) (c : Cell) :
    c ∈ boardCells h w ↔ inBounds h w c := by
  cases c with
  | mk i j =>
    simp only [boardCells, inBounds, Finset.mem_product, Finset.mem_Icc]
    omega

/-!
## Claim C4 — classified cells never stay in sentences
-/

theorem inv4_mark_mine (st : AIState) (c : Cell) (h : Inv4 st) :
    Inv4 (st.mark_mine c) := by
  intro s' hs' d hd
  simp only [AIState.mark_mine, List.mem_map] at hs'
  obtain ⟨s, hs, rfl⟩ := hs'
  have hdc : d ∈ s.cells ∧ d ≠ c := by
    unfold Sentence.mark_mine at hd
    split_ifs at hd with hc
    · exact ⟨(Finset.mem_erase.mp hd).2, (Finset.mem_erase.mp hd).1⟩
    · exact ⟨hd, fun hdc => hc (hdc ▸ hd)⟩
  have hold := h s hs d hdc.1
  refine ⟨?_, hold.2⟩
  simp only [AIState.mark_mine, Finset.mem_insert]
  rintro (h1 | h1)
  · exact hdc.2 h1
  · exact hold.1 h1

theorem inv4_mark_safe (st : AIState) (c : Cell) (h : Inv4 st) :
    Inv4 (st.mark_safe c) := by
  intro s' hs' d hd
  simp only [AIState.mark_safe, List.mem_map] at hs'
  obtain ⟨s, hs, rfl⟩ := hs'
  have hdc : d ∈ s.cells ∧ d ≠ c := by
    unfold Sentence.mark_safe at hd
    split_ifs at hd with hc
    · exact ⟨(Finset.mem_erase.mp hd).2, (Finset.mem_erase.mp hd).1⟩
    · exact ⟨hd, fun hdc => hc (hdc ▸ hd)⟩
  have hold := h s hs d hdc.1
  refine ⟨hold.1, ?_⟩
  simp only [AIState.mark_safe, Finset.mem_insert]
  rintro (h1 | h1)
  · exact hdc.2 h1
  · exact hold.2 h1

theorem inv4_markMines (st : AIState) (ms : Finset Cell) (h : Inv4 st) :
    Inv4 (st.markMines ms) := by
  intro s' hs' d hd
  simp only [AIState.markMines, List.mem_map] at hs'
  obtain ⟨s, hs, rfl⟩ := hs'
  simp only [Sentence.markMines, Finset.mem_sdiff] at hd
  have hold := h s hs d hd.1
  refine ⟨?_, hold.2⟩
  simp only [AIState.markMines, Finset.mem_union]
  rintro (h1 | h1)
  · exact hold.1 h1
  · exact hd.2 h1

theorem inv4_markSafes (st : AIState) (ss : Finset Cell) (h : Inv4 st) :
    Inv4 (st.markSafes ss) := by
  intro s' hs' d hd
  simp only [AIState.markSafes, List.mem_map] at hs'
  obtain ⟨s, hs, rfl⟩ := hs'
  simp only [Sentence.markSafes, Finset.mem_sdiff] at hd
  have hold := h s hs d hd.1
  refine ⟨hold.1, ?_⟩
  simp only [AIState.markSafes, Finset.mem_union]
  rintro (h1 | h1)
  · exact hold.2 h1
  · exact hd.2 h1

theorem inv4_preAdd (st : AIState) (cell : Cell) (count : ℤ)
    (h : Inv4 st) : Inv4 (preAdd st cell count) := by
  have h1 :
      Inv4 (AIState.mark_safe
        { st with moves_made := insert cell st.moves_made } cell) :=
    inv4_mark_safe _ _ h
  intro s' hs' d hd
  simp only [preAdd] at hs'
  rcases List.mem_append.mp hs' with hsk | hnew
  · exact h1 s' hsk d hd
  · obtain rfl := List.mem_singleton.mp hnew
    simp only [newSentence, Finset.mem_filter] at hd
    exact ⟨hd.2.2.2, hd.2.2.1⟩

theorem inv4_passBody (st : AIState) (h : Inv4 st) :
    Inv4 (passBody st).1 := by
  have h2 : Inv4 (passMarked st) :=
    inv4_markSafes _ _ (inv4_markMines _ _ h)
  intro s' hs' d hd
  rw [passBody_knowledge] at hs'
  rcases List.mem_append.mp hs' with hsw | hinf
  · exact h2 s' (mem_of_mem_sweep _ _ hsw) d hd
  · obtain ⟨s1, s2, hs1, hs2, _, _, _, rfl, _⟩ :=
      (mem_inferNew _ _).mp hinf
    exact h2 s2 (mem_of_mem_sweep _ _ hs2) d (Finset.mem_sdiff.mp hd).1

/-- Claim C4: after any sequence of `add_knowledge`, `mark_mine` and
`mark_safe` calls on a fresh `MinesweeperAI` (every intermediate state
of `add_knowledge` included), no cell of `self.mines` or `self.safes`
occurs in the cell set of any sentence stored in `self.knowledge`. -/
theorem claim4_classified_not_in_sentences (st : AIState)
    (h : ReachOps st) :
    ∀ s ∈ st.knowledge, ∀ c ∈ s.cells, c ∉ st.mines ∧ c ∉ st.safes := by
  induction h with
  | init h w => intro s hs; cases hs
  | add st cell count _ ih => exact inv4_preAdd st cell count ih
  | pass st _ ih => exact inv4_passBody st ih
  | mine st c _ ih => exact inv4_mark_mine st c ih
  | safe st c _ ih => exact inv4_mark_safe st c ih

/-- Claim C4 (witness): a concrete three-step run — integrate `(0,0)↦1`
on a fresh 2×2 AI, run one inference pass, then `mark_mine((1,1))` —
stores the sentence `{(0,1),(1,0)} = 0`, and its cell `(0,1)` is in
neither `mines` nor `safes`. -/
theorem claim4_witness :
    (⟨{(0, 1), (1, 0)}, 0⟩ : Sentence) ∈ (AIState.mark_mine
        (passBody (preAdd (initAI 2 2) (0, 0) 1)).1 (1, 1)).knowledge ∧
      ((0, 1) ∉ (AIState.mark_mine
          (passBody (preAdd (initAI 2 2) (0, 0) 1)).1 (1, 1)).mines ∧
        (0, 1) ∉ (AIState.mark_mine
          (passBody (preAdd (initAI 2 2) (0, 0) 1)).1 (1, 1)).safes) :=
  ⟨by decide,
    claim4_classified_not_in_sentences _
      (ReachOps.mine _ _ (ReachOps.pass _ (ReachOps.add _ (0, 0) 1
        (ReachOps.init 2 2))))
      ⟨{(0, 1), (1, 0)}, 0⟩ (by decide) (0, 1) (by decide)⟩

/-!
## Claim C10 — bounds are preserved
-/

theorem invB_preAdd (st : AIState) (cell : Cell) (count : ℤ)
    (hb : inBounds st.height st.width cell) (h : InvB st) :
    InvB (preAdd st cell count) := by
  obtain ⟨hk, hm, hs⟩ := h
  refine ⟨?_, hm, ?_⟩
  · intro s' hs' d hd
    simp only [preAdd] at hs'
    rcases List.mem_append.mp hs' with hsk | hnew
    · simp only [AIState.mark_safe, List.mem_map] at hsk
      obtain ⟨s, hsmem, rfl⟩ := hsk
      have hdin : d ∈ s.cells := by
        unfold Sentence.mark_safe at hd
        split_ifs at hd with hc
        · exact (Finset.mem_erase.mp hd).2
        · exact hd
      exact hk s hsmem d hdin
    · obtain rfl := List.mem_singleton.mp hnew
      simp only [newSentence, Finset.mem_filter] at hd
      exact (mem_boardCells _ _ _).mpr hd.2.1
  · intro c hc
    simp only [preAdd, AIState.mark_safe, Finset.mem_insert] at hc
    rcases hc with rfl | hc
    · exact (mem_boardCells _ _ _).mpr hb
    · exact hs c hc

theorem invB_passBody (st : AIState) (h : InvB st) :
    InvB (passBody st).1 := by
  obtain ⟨hk, hm, hs⟩ := h
  have hmu : ∀ c ∈ minesUnion st.knowledge,
      c ∈ boardCells st.height st.width := by
    intro c hc
    obtain ⟨s, hsmem, hck⟩ := (mem_minesUnion _ _).mp hc
    exact hk s hsmem c (mem_known_mines s c hck).1
  have hsu : ∀ c ∈ safesUnion st.knowledge,
      c ∈ boardCells st.height st.width := by
    intro c hc
    obtain ⟨s, hsmem, hck⟩ := (mem_safesUnion _ _).mp hc
    exact hk s hsmem c (mem_known_safes s c hck).1
  have hk2 : ∀ s ∈ (passMarked st).knowledge, ∀ c ∈ s.cells,
      c ∈ boardCells st.height st.width := by
    intro s' hs' d hd
    simp only [passMarked, AIState.markSafes, AIState.markMines,
      List.mem_map] at hs'
    obtain ⟨s', ⟨s, hsmem, rfl⟩, rfl⟩ := hs'
    simp only [Sentence.markSafes, Sentence.markMines,
      Finset.mem_sdiff] at hd
    exact hk s hsmem d hd.1.1
  refine ⟨?_, ?_, ?_⟩
  · intro s' hs' d hd
    rw [passBody_knowledge] at hs'
    rcases List.mem_append.mp hs' with hsw | hinf
    · exact hk2 s' (mem_of_mem_sweep _ _ hsw) d hd
    · obtain ⟨s1, s2, hs1, hs2, _, _, _, rfl, _⟩ :=
        (mem_inferNew _ _).mp hinf
      exact hk2 s2 (mem_of_mem_sweep _ _ hs2) d (Finset.mem_sdiff.mp hd).1
  · intro c hc
    have : c ∈ st.mines ∪ minesUnion st.knowledge := hc
    rcases Finset.mem_union.mp this with h1 | h1
    · exact hm c h1
    · exact hmu c h1
  · intro c hc
    have : c ∈ st.safes ∪ safesUnion st.knowledge := hc
    rcases Finset.mem_union.mp this with h1 | h1
    · exact hs c h1
    · exact hsu c h1

/-- Claim C10: if every observed cell handed to `add_knowledge` is in
bounds, then every cell in any stored sentence, every known mine and
every known safe cell is in bounds; neither the neighbor filter nor the
subset-resolution set difference ever introduces an out-of-bounds
cell. -/
theorem claim10_cells_stay_in_bounds (st : AIState)
    (h : Reach inBoundsObs st) :
    (∀ s ∈ st.knowledge, ∀ c ∈ s.cells,
        c ∈ boardCells st.height st.width) ∧
      (∀ c ∈ st.mines, c ∈ boardCells st.height st.width) ∧
      (∀ c ∈ st.safes, c ∈ boardCells st.height st.width) := by
  induction h with
  | init h w =>
    exact ⟨fun s hs => absurd hs (List.not_mem_nil s),
      fun c hc => absurd hc (Finset.not_mem_empty c),
      fun c hc => absurd hc (Finset.not_mem_empty c)⟩
  | add st cell count _ hobs ih => exact invB_preAdd st cell count hobs ih
  | pass st _ ih => exact invB_passBody st ih

/-- Claim C10 (witness): the run integrating `(0,0)↦1` on a fresh 2×2 AI
and then one inference pass keeps all tracked cells in bounds. -/
theorem claim10_witness :
    (∀ s ∈ (passBody (preAdd (initAI 2 2) (0, 0) 1)).1.knowledge,
        ∀ c ∈ s.cells,
          c ∈ boardCells (passBody (preAdd (initAI 2 2) (0, 0) 1)).1.height
            (passBody (preAdd (initAI 2 2) (0, 0) 1)).1.width) ∧
      (∀ c ∈ (passBody (preAdd (initAI 2 2) (0, 0) 1)).1.mines,
        c ∈ boardCells (passBody (preAdd (initAI 2 2) (0, 0) 1)).1.height
          (passBody (preAdd (initAI 2 2) (0, 0) 1)).1.width) ∧
      (∀ c ∈ (passBody (preAdd (initAI 2 2) (0, 0) 1)).1.safes,
        c ∈ boardCells (passBody (preAdd (initAI 2 2) (0, 0) 1)).1.height
          (passBody (preAdd (initAI 2 2) (0, 0) 1)).1.width) :=
  claim10_cells_stay_in_bounds _
    (Reach.pass _ (Reach.add _ (0, 0) 1 (Reach.init 2 2) (by decide)))

/-!
## The soundness invariant for consistent observations
-/

/-- A sentence all of whose cells count as mines has all cells in `M`. -/
theorem cells_subset_of_full (M : Finset Cell) (s : Sentence)
    (hcnt : ((s.cells ∩ M).card : ℤ) = s.count)
    (hfull : (s.cells.card : ℤ) = s.count) : s.cells ⊆ M := by
  have hcard : s.cells.card ≤ (s.cells ∩ M).card := by
    have : ((s.cells ∩ M).card : ℤ) = (s.cells.card : ℤ) := by omega
    omega
  have heq : s.cells ∩ M = s.cells :=
    Finset.eq_of_subset_of_card_le Finset.inter_subset_left hcard
  intro c hc
  have : c ∈ s.cells ∩ M := heq.symm ▸ hc
  exact (Finset.mem_inter.mp this).2

/-- A zero-count sentence has no cell in `M`. -/
theorem cells_disjoint_of_zero (M : Finset Cell) (s : Sentence)
    (hcnt : ((s.cells ∩ M).card : ℤ) = s.count)
    (hzero : s.count = 0) : ∀ c ∈ s.cells, c ∉ M := by
  intro c hc hcM
  have hempty : s.cells ∩ M = ∅ := by
    rw [hzero] at hcnt
    exact Finset.card_eq_zero.mp (by omega)
  have : c ∈ s.cells ∩ M := Finset.mem_inter.mpr ⟨hc, hcM⟩
  rw [hempty] at this
  exact absurd this (Finset.not_mem_empty c)

/-- Under the invariant, every cell the pass is about to mark as a mine
is a real in-bounds mine not yet classified. -/
theorem minesUnion_props (M : Finset Cell) (st : AIState)
    (h : InvC M st) :
    ∀ c ∈ minesUnion st.knowledge,
      c ∈ M ∧ c ∈ boardCells st.height st.width ∧
        c ∉ st.mines ∧ c ∉ st.safes := by
  intro c hc
  obtain ⟨s, hsmem, hck⟩ := (mem_minesUnion _ _).mp hc
  obtain ⟨hcell, hfull, _⟩ := mem_known_mines s c hck
  obtain ⟨hcnt, hcells⟩ := h.2.2 s hsmem
  obtain ⟨hb, hm, hs⟩ := hcells c hcell
  exact ⟨cells_subset_of_full M s hcnt hfull hcell, hb, hm, hs⟩

/-- Under the invariant, every cell the pass is about to mark safe is a
real in-bounds non-mine not yet classified. -/
theorem safesUnion_props (M : Finset Cell) (st : AIState)
    (h : InvC M st) :
    ∀ c ∈ safesUnion st.knowledge,
      c ∉ M ∧ c ∈ boardCells st.height st.width ∧
        c ∉ st.mines ∧ c ∉ st.safes := by
  intro c hc
  obtain ⟨s, hsmem, hck⟩ := (mem_safesUnion _ _).mp hc
  obtain ⟨hcell, hzero⟩ := mem_known_safes s c hck
  obtain ⟨hcnt, hcells⟩ := h.2.2 s hsmem
  obtain ⟨hb, hm, hs⟩ := hcells c hcell
  exact ⟨cells_disjoint_of_zero M s hcnt hzero c hcell, hb, hm, hs⟩

/-- Marking a true safe cell preserves the soundness invariant. -/
theorem invC_mark_safe (M : Finset Cell) (st : AIState) (c : Cell)
    (h : InvC M st) (hcM : c ∉ M) : InvC M (st.mark_safe c) := by
  obtain ⟨hmines, hsafes, hsent⟩ := h
  refine ⟨hmines, ?_, ?_⟩
  · intro d hd
    simp only [AIState.mark_safe, Finset.mem_insert] at hd
    rcases hd with rfl | hd
    · exact hcM
    · exact hsafes d hd
  · intro s' hs'
    simp only [AIState.mark_safe, List.mem_map] at hs'
    obtain ⟨s, hsmem, rfl⟩ := hs'
    obtain ⟨hcnt, hcells⟩ := hsent s hsmem
    constructor
    · unfold Sentence.mark_safe
      split_ifs with hcin
      · simp only
        have : s.cells.erase c ∩ M = s.cells ∩ M := by
          ext d
          simp only [Finset.mem_inter, Finset.mem_erase]
          constructor
          · rintro ⟨⟨_, hd⟩, hdM⟩
            exact ⟨hd, hdM⟩
          · rintro ⟨hd, hdM⟩
            exact ⟨⟨fun hdc => hcM (hdc ▸ hdM), hd⟩, hdM⟩
        rw [this]
        exact hcnt
      · exact hcnt
    · intro d hd
      have hdin : d ∈ s.cells ∧ d ≠ c := by
        unfold Sentence.mark_safe at hd
        split_ifs at hd with hcin
        · exact ⟨(Finset.mem_erase.mp hd).2, (Finset.mem_erase.mp hd).1⟩
        · exact ⟨hd, fun hdc => hcin (hdc ▸ hd)⟩
      obtain ⟨hb, hm, hs⟩ := hcells d hdin.1
      refine ⟨hb, hm, ?_⟩
      simp only [AIState.mark_safe, Finset.mem_insert]
      rintro (h1 | h1)
      · exact hdin.2 h1
      · exact hs h1

/-- Simultaneously marking a set of true in-bounds mines preserves the
soundness invariant. -/
theorem invC_markMines (M : Finset Cell) (st : AIState)
    (ms : Finset Cell) (h : InvC M st)
    (hms : ∀ c ∈ ms, c ∈ M ∧ c ∈ boardCells st.height st.width) :
    InvC M (st.markMines ms) := by
  obtain ⟨hmines, hsafes, hsent⟩ := h
  refine ⟨?_, hsafes, ?_⟩
  · intro d hd
    simp only [AIState.markMines, Finset.mem_union] at hd
    rcases hd with hd | hd
    · exact hmines d hd
    · exact hms d hd
  · intro s' hs'
    simp only [AIState.markMines, List.mem_map] at hs'
    obtain ⟨s, hsmem, rfl⟩ := hs'
    obtain ⟨hcnt, hcells⟩ := hsent s hsmem
    constructor
    · simp only [Sentence.markMines]
      have hsplit : (s.cells \ ms) ∩ M = (s.cells ∩ M) \ (s.cells ∩ ms) := by
        ext d
        simp only [Finset.mem_inter, Finset.mem_sdiff]
        constructor
        · rintro ⟨⟨hd, hdm⟩, hdM⟩
          exact ⟨⟨hd, hdM⟩, fun hboth => hdm hboth.2⟩
        · rintro ⟨⟨hd, hdM⟩, hnot⟩
          exact ⟨⟨hd, fun hdm => hnot ⟨hd, hdm⟩⟩, hdM⟩
      have hsub : s.cells ∩ ms ⊆ s.cells ∩ M := by
        intro d hd
        obtain ⟨hd1, hd2⟩ := Finset.mem_inter.mp hd
        exact Finset.mem_inter.mpr ⟨hd1, (hms d hd2).1⟩
      have hcard := Finset.card_sdiff hsub
      have hle := Finset.card_le_card hsub
      rw [hsplit, hcard]
      push_cast [Nat.cast_sub hle]
      omega
    · intro d hd
      simp only [Sentence.markMines, Finset.mem_sdiff] at hd
      obtain ⟨hb, hm, hs⟩ := hcells d hd.1
      refine ⟨hb, ?_, hs⟩
      simp only [AIState.markMines, Finset.mem_union]
      rintro (h1 | h1)
      · exact hm h1
      · exact hd.2 h1

/-- Simultaneously marking a set of true non-mines safe preserves the
soundness invariant. -/
theorem invC_markSafes (M : Finset Cell) (st : AIState)
    (ss : Finset Cell) (h : InvC M st)
    (hss : ∀ c ∈ ss, c ∉ M) : InvC M (st.markSafes ss) := by
  obtain ⟨hmines, hsafes, hsent⟩ := h
  refine ⟨hmines, ?_, ?_⟩
  · intro d hd
    simp only [AIState.markSafes, Finset.mem_union] at hd
    rcases hd with hd | hd
    · exact hsafes d hd
    · exact hss d hd
  · intro s' hs'
    simp only [AIState.markSafes, List.mem_map] at hs'
    obtain ⟨s, hsmem, rfl⟩ := hs'
    obtain ⟨hcnt, hcells⟩ := hsent s hsmem
    constructor
    · simp only [Sentence.markSafes]
      have : (s.cells \ ss) ∩ M = s.cells ∩ M := by
        ext d
        simp only [Finset.mem_inter, Finset.mem_sdiff]
        constructor
        · rintro ⟨⟨hd, _⟩, hdM⟩
          exact ⟨hd, hdM⟩
        · rintro ⟨hd, hdM⟩
          exact ⟨⟨hd, fun hds => hss d hds hdM⟩, hdM⟩
      rw [this]
      exact hcnt
    · intro d hd
      simp only [Sentence.markSafes, Finset.mem_sdiff] at hd
      obtain ⟨hb, hm, hs⟩ := hcells d hd.1
      refine ⟨hb, hm, ?_⟩
      simp only [AIState.markSafes, Finset.mem_union]
      rintro (h1 | h1)
      · exact hs h1
      · exact hd.2 h1

/-- Integrating a consistent observation preserves the soundness
invariant. -/
theorem invC_preAdd (M : Finset Cell) (st : AIState) (cell : Cell)
    (count : ℤ) (h : InvC M st)
    (hobs : consistentObs M st cell count) :
    InvC M (preAdd st cell count) := by
  obtain ⟨hcM, hbnd, hcount⟩ := hobs
  have h1 : InvC M (AIState.mark_safe
      { st with moves_made := insert cell st.moves_made } cell) :=
    invC_mark_safe M _ cell h hcM
  obtain ⟨hmines1, hsafes1, hsent1⟩ := h1
  refine ⟨hmines1, hsafes1, ?_⟩
  intro s' hs'
  have hs'' : s' ∈ (AIState.mark_safe
      { st with moves_made := insert cell st.moves_made } cell).knowledge ++
        [newSentence (AIState.mark_safe
          { st with moves_made := insert cell st.moves_made } cell)
          cell count] := hs'
  rcases List.mem_append.mp hs'' with hold | hnew
  · exact hsent1 s' hold
  · obtain rfl := List.mem_singleton.mp hnew
    constructor
    · simp only [newSentence, AIState.mark_safe]
      have hXcell : cell ∉ (box cell).filter
          (fun c => inBounds st.height st.width c ∧ c ∈ M) := by
        simp only [Finset.mem_filter]
        rintro ⟨-, -, hcm⟩
        exact hcM hcm
      have hXcard : nearby_mines st.height st.width M cell =
          (((box cell).filter
            (fun c => inBounds st.height st.width c ∧ c ∈ M)).card : ℤ) := by
        unfold nearby_mines
        rw [Finset.filter_erase, Finset.erase_eq_of_not_mem hXcell]
      have hFM : ((box cell).filter
            (fun c => inBounds st.height st.width c ∧
              c ∉ insert cell st.safes ∧ c ∉ st.mines)) ∩ M =
          ((box cell).filter
            (fun c => inBounds st.height st.width c ∧ c ∈ M)) \
            st.mines := by
        ext d
        simp only [Finset.mem_inter, Finset.mem_filter, Finset.mem_sdiff]
        constructor
        · rintro ⟨⟨hdB, hdin, -, hdm⟩, hdM⟩
          exact ⟨⟨hdB, hdin, hdM⟩, hdm⟩
        · rintro ⟨⟨hdB, hdin, hdM⟩, hdm⟩
          refine ⟨⟨hdB, hdin, ?_, hdm⟩, hdM⟩
          intro hds
          exact hsafes1 d hds hdM
      have hXm : ((box cell).filter
            (fun c => inBounds st.height st.width c ∧ c ∈ M)) ∩ st.mines =
          (box cell) ∩ st.mines := by
        ext d
        simp only [Finset.mem_inter, Finset.mem_filter]
        constructor
        · rintro ⟨⟨hdB, -, -⟩, hdm⟩
          exact ⟨hdB, hdm⟩
        · rintro ⟨hdB, hdm⟩
          obtain ⟨hdM, hdb⟩ := hmines1 d hdm
          exact ⟨⟨hdB, (mem_boardCells _ _ _).mp hdb, hdM⟩, hdm⟩
      have harith := Finset.card_inter_add_card_sdiff
        ((box cell).filter
          (fun c => inBounds st.height st.width c ∧ c ∈ M)) st.mines
      rw [hFM, hcount, hXcard, ← hXm]
      omega
    · intro d hd
      simp only [newSentence, Finset.mem_filter] at hd
      exact ⟨(mem_boardCells _ _ _).mpr hd.2.1, hd.2.2.2, hd.2.2.1⟩

/-- The inferred sentence of a subset pair counts its true mines. -/
theorem derived_count (M : Finset Cell) (s1 s2 : Sentence)
    (h1 : ((s1.cells ∩ M).card : ℤ) = s1.count)
    (h2 : ((s2.cells ∩ M).card : ℤ) = s2.count)
    (hsub : s1.cells ⊆ s2.cells) :
    (((s2.cells \ s1.cells) ∩ M).card : ℤ) = s2.count - s1.count := by
  have hsplit : (s2.cells \ s1.cells) ∩ M =
      (s2.cells ∩ M) \ (s1.cells ∩ M) := by
    ext d
    simp only [Finset.mem_inter, Finset.mem_sdiff]
    constructor
    · rintro ⟨⟨hd2, hd1⟩, hdM⟩
      exact ⟨⟨hd2, hdM⟩, fun hboth => hd1 hboth.1⟩
    · rintro ⟨⟨hd2, hdM⟩, hnot⟩
      exact ⟨⟨hd2, fun hd1 => hnot ⟨hd1, hdM⟩⟩, hdM⟩
  have hsubM : s1.cells ∩ M ⊆ s2.cells ∩ M := by
    intro d hd
    obtain ⟨hd1, hdM⟩ := Finset.mem_inter.mp hd
    exact Finset.mem_inter.mpr ⟨hsub hd1, hdM⟩
  have hle := Finset.card_le_card hsubM
  rw [hsplit, Finset.card_sdiff hsubM]
  omega

/-- One pass of the fixed-point loop preserves the soundness
invariant. -/
theorem invC_passBody (M : Finset Cell) (st : AIState)
    (h : InvC M st) : InvC M (passBody st).1 := by
  have hmu := minesUnion_props M st h
  have hsu := safesUnion_props M st h
  have h2 : InvC M (passMarked st) := by
    unfold passMarked
    refine invC_markSafes M _ _ (invC_markMines M st _ h ?_) ?_
    · intro c hc
      exact ⟨(hmu c hc).1, (hmu c hc).2.1⟩
    · intro c hc
      exact (hsu c hc).1
  obtain ⟨hmines2, hsafes2, hsent2⟩ := h2
  refine ⟨hmines2, hsafes2, ?_⟩
  intro s' hs'
  rw [passBody_knowledge] at hs'
  rcases List.mem_append.mp hs' with hsw | hinf
  · exact hsent2 s' (mem_of_mem_sweep _ _ hsw)
  · obtain ⟨s1, s2, hs1, hs2, hsub, hcnt, hne, rfl, hnot⟩ :=
      (mem_inferNew _ _).mp hinf
    have hc1 := hsent2 s1 (mem_of_mem_sweep _ _ hs1)
    have hc2 := hsent2 s2 (mem_of_mem_sweep _ _ hs2)
    constructor
    · exact derived_count M s1 s2 hc1.1 hc2.1 hsub
    · intro d hd
      exact hc2.2 d (Finset.mem_sdiff.mp hd).1

/-- Every state reachable under consistent observations of the board `M`
satisfies the soundness invariant. -/
theorem invC_of_reach (M : Finset Cell) (st : AIState)
    (h : Reach (consistentObs M) st) : InvC M st := by
  induction h with
  | init h w =>
    refine ⟨?_, ?_, ?_⟩
    · intro c hc
      exact absurd hc (Finset.not_mem_empty c)
    · intro c hc
      exact absurd hc (Finset.not_mem_empty c)
    · intro s hs
      exact absurd hs (List.not_mem_nil s)
  | add st cell count _ hobs ih => exact invC_preAdd M st cell count ih hobs
  | pass st _ ih => exact invC_passBody M st ih

/-!
## Claims C1 and C9 — amended statements
-/

/-- Claim C1 (amended): after any sequence of `add_knowledge` calls on a
fresh `MinesweeperAI` whose observations are consistent with one board
`M` — the revealed cell is a non-mine in bounds and the reported count
is the board's `nearby_mines` — the sets `self.mines` and `self.safes`
are disjoint (at every intermediate point as well).  The counterexample
shows the restriction to consistent observations is necessary. -/
theorem claim1_amended (M : Finset Cell) (st : AIState)
    (h : Reach (consistentObs M) st) : st.mines ∩ st.safes = ∅ := by
  obtain ⟨hm, hs, -⟩ := invC_of_reach M st h
  rw [Finset.eq_empty_iff_forall_not_mem]
  intro c hc
  obtain ⟨h1, h2⟩ := Finset.mem_inter.mp hc
  exact hs c h2 (hm c h1).1

/-- Claim C1 (amended, witness): the consistent run integrating
`(0,0)↦1` on a 1×2 board with mine `(0,1)` and then one inference pass
(which classifies the mine) keeps `mines` and `safes` disjoint. -/
theorem claim1_witness :
    (passBody (preAdd (initAI 1 2) (0, 0) 1)).1.mines ∩
      (passBody (preAdd (initAI 1 2) (0, 0) 1)).1.safes = ∅ :=
  claim1_amended {(0, 1)} _
    (Reach.pass _ (Reach.add _ (0, 0) 1 (Reach.init 1 2) (by decide)))

/-- Claim C9 (amended): under consistent observations of a board `M`,
every stored sentence satisfies `0 ≤ count ≤ |cells|` at all times.  The
counterexample shows this fails for an inconsistent observation. -/
theorem claim9_amended (M : Finset Cell) (st : AIState)
    (h : Reach (consistentObs M) st) :
    ∀ s ∈ st.knowledge, 0 ≤ s.count ∧ s.count ≤ (s.cells.card : ℤ) := by
  obtain ⟨-, -, hsent⟩ := invC_of_reach M st h
  intro s hs
  obtain ⟨hcnt, -⟩ := hsent s hs
  have hle : (s.cells ∩ M).card ≤ s.cells.card :=
    Finset.card_le_card Finset.inter_subset_left
  omega

/-- Claim C9 (amended, witness): on the 2×2 board with mine `(0,1)`,
integrating the consistent observation `(0,0)↦1` stores the sentence
`{(0,1),(1,0),(1,1)} = 1`, which satisfies `0 ≤ count ≤ |cells|`. -/
theorem claim9_witness :
    (⟨{(0, 1), (1, 0), (1, 1)}, 1⟩ : Sentence) ∈
        (preAdd (initAI 2 2) (0, 0) 1).knowledge ∧
      (0 ≤ (⟨{(0, 1), (1, 0), (1, 1)}, 1⟩ : Sentence).count ∧
        (⟨{(0, 1), (1, 0), (1, 1)}, 1⟩ : Sentence).count ≤
          ((⟨{(0, 1), (1, 0), (1, 1)}, 1⟩ : Sentence).cells.card : ℤ)) :=
  ⟨by decide,
    claim9_amended {(0, 1)} _
      (Reach.add _ (0, 0) 1 (Reach.init 2 2) (by decide))
      ⟨{(0, 1), (1, 0), (1, 1)}, 1⟩ (by decide)⟩

/-!
## Claim C3 — termination of the fixed-point loop
-/

theorem passBody_height (st : AIState) :
    (passBody st).1.height = st.height := rfl

theorem passBody_width (st : AIState) :
    (passBody st).1.width = st.width := rfl

theorem passBody_mines (st : AIState) :
    (passBody st).1.mines = st.mines ∪ minesUnion st.knowledge := rfl

theorem passBody_safes (st : AIState) :
    (passBody st).1.safes = st.safes ∪ safesUnion st.knowledge := rfl

/-- When a pass reports new information, something fired. -/
theorem passBody_true (st : AIState) (h : (passBody st).2 = true) :
    minesUnion st.knowledge ≠ ∅ ∨ safesUnion st.knowledge ≠ ∅ ∨
      inferNew (sweep (passMarked st).knowledge) ≠ [] := by
  by_cases hP :
      minesUnion st.knowledge ≠ ∅ ∨ safesUnion st.knowledge ≠ ∅ ∨
        inferNew (sweep (passMarked st).knowledge) ≠ []
  · exact hP
  · exfalso
    have : (passBody st).2 = false := by
      simp only [passBody, if_neg hP]
    rw [h] at this
    cases this

theorem sentence_eq (s t : Sentence) (hc : s.cells = t.cells)
    (hn : s.count = t.count) : s = t := by
  cases s
  cases t
  cases hc
  cases hn
  rfl

theorem mem_cellSetsNE (L : List Sentence) (d : Finset Cell) :
    d ∈ cellSetsNE L ↔ d ≠ ∅ ∧ ∃ s ∈ L, s.cells = d := by
  simp only [cellSetsNE, Finset.mem_erase, List.mem_toFinset, List.mem_map]

/-- The sweep changes no nonempty cell set. -/
theorem cellSetsNE_sweep (L : List Sentence) :
    cellSetsNE (sweep L) = cellSetsNE L := by
  ext d
  rw [mem_cellSetsNE, mem_cellSetsNE]
  constructor
  · rintro ⟨hne, s, hs, rfl⟩
    exact ⟨hne, s, mem_of_mem_sweep L s hs, rfl⟩
  · rintro ⟨hne, s, hs, rfl⟩
    exact ⟨hne, s, mem_sweepAux_of_nonempty _ L 0 s hs hne, rfl⟩

/-- Under the invariant, the count of every stored sentence is a
function of its cell set, so a pass that only infers (no marking) adds
at least one brand-new nonempty cell set. -/
theorem cellSetsNE_grows (M : Finset Cell) (st : AIState)
    (hinv : InvC M st)
    (hmu : minesUnion st.knowledge = ∅)
    (hsu : safesUnion st.knowledge = ∅)
    (hbuf : inferNew (sweep (passMarked st).knowledge) ≠ []) :
    (cellSetsNE st.knowledge).card <
      (cellSetsNE (passBody st).1.knowledge).card := by
  have hmark : passMarked st = st := by
    unfold passMarked
    rw [hmu, hsu, markMines_empty, markSafes_empty]
  rw [hmark] at hbuf
  obtain ⟨t, ht⟩ := List.exists_mem_of_ne_nil _ hbuf
  obtain ⟨s1, s2, hs1, hs2, hsub, hcnt, hne, rfl, hnot⟩ :=
    (mem_inferNew _ _).mp ht
  obtain ⟨-, -, hsent⟩ := hinv
  have hc1 := (hsent s1 (mem_of_mem_sweep _ _ hs1)).1
  have hc2 := (hsent s2 (mem_of_mem_sweep _ _ hs2)).1
  have htcells : s2.cells \ s1.cells ≠ ∅ := by
    intro h0
    have hsub2 : s2.cells ⊆ s1.cells := by
      intro d hd
      by_contra hd1
      have : d ∈ s2.cells \ s1.cells := Finset.mem_sdiff.mpr ⟨hd, hd1⟩
      rw [h0] at this
      exact absurd this (Finset.not_mem_empty d)
    have hcells : s1.cells = s2.cells := Finset.Subset.antisymm hsub hsub2
    have : s1.count = s2.count := by rw [← hc1, ← hc2, hcells]
    exact hne (sentence_eq s1 s2 hcells this)
  have htcnt := derived_count M s1 s2 hc1 hc2 hsub
  have htnew : (s2.cells \ s1.cells) ∉ cellSetsNE (sweep st.knowledge) := by
    intro hmem
    obtain ⟨-, u, huL, hucells⟩ := (mem_cellSetsNE _ _).mp hmem
    have hucnt := (hsent u (mem_of_mem_sweep _ _ huL)).1
    have hun : u.count = s2.count - s1.count := by
      rw [← hucnt, hucells, htcnt]
    have hueq : u = ⟨s2.cells \ s1.cells, s2.count - s1.count⟩ :=
      sentence_eq u ⟨s2.cells \ s1.cells, s2.count - s1.count⟩ hucells hun
    exact hnot (hueq ▸ huL)
  have hssub : cellSetsNE (sweep st.knowledge) ⊂
      cellSetsNE ((passBody st).1.knowledge) := by
    rw [passBody_knowledge, hmark]
    constructor
    · intro d hd
      obtain ⟨hne', s, hs, rfl⟩ := (mem_cellSetsNE _ _).mp hd
      exact (mem_cellSetsNE _ _).mpr
        ⟨hne', s, List.mem_append_left _ hs, rfl⟩
    · intro hsub'
      refine htnew (hsub' ?_)
      exact (mem_cellSetsNE _ _).mpr
        ⟨htcells, _, List.mem_append_right _ ht, rfl⟩
  calc (cellSetsNE st.knowledge).card
      = (cellSetsNE (sweep st.knowledge)).card := by rw [cellSetsNE_sweep]
    _ < (cellSetsNE (passBody st).1.knowledge).card :=
        Finset.card_lt_card hssub

/-- Under the invariant, the distinct nonempty cell sets are subsets of
the board, hence at most `2 ^ |board|` of them. -/
theorem cellSetsNE_card_le (M : Finset Cell) (st : AIState)
    (hinv : InvC M st) :
    (cellSetsNE st.knowledge).card ≤
      2 ^ (boardCells st.height st.width).card := by
  obtain ⟨-, -, hsent⟩ := hinv
  have hsub : cellSetsNE st.knowledge ⊆
      (boardCells st.height st.width).powerset := by
    intro d hd
    obtain ⟨-, s, hs, rfl⟩ := (mem_cellSetsNE _ _).mp hd
    exact Finset.mem_powerset.mpr
      (fun c hc => ((hsent s hs).2 c hc).1)
  calc (cellSetsNE st.knowledge).card
      ≤ (boardCells st.height st.width).powerset.card :=
        Finset.card_le_card hsub
    _ = 2 ^ (boardCells st.height st.width).card :=
        Finset.card_powerset _

/-- A pass that marks something strictly shrinks the set of unclassified
in-bounds cells. -/
theorem unclassified_lt (M : Finset Cell) (st : AIState)
    (hinv : InvC M st)
    (hne : minesUnion st.knowledge ≠ ∅ ∨ safesUnion st.knowledge ≠ ∅) :
    ((boardCells st.height st.width) \
        ((passBody st).1.mines ∪ (passBody st).1.safes)).card <
      ((boardCells st.height st.width) \ (st.mines ∪ st.safes)).card := by
  rw [passBody_mines, passBody_safes]
  have hc : ∃ c, c ∈ boardCells st.height st.width ∧ c ∉ st.mines ∧
      c ∉ st.safes ∧
      (c ∈ minesUnion st.knowledge ∨ c ∈ safesUnion st.knowledge) := by
    rcases hne with hne | hne
    · obtain ⟨c, hc⟩ := Finset.nonempty_iff_ne_empty.mpr hne
      obtain ⟨-, hb, hm, hs⟩ := minesUnion_props M st hinv c hc
      exact ⟨c, hb, hm, hs, Or.inl hc⟩
    · obtain ⟨c, hc⟩ := Finset.nonempty_iff_ne_empty.mpr hne
      obtain ⟨-, hb, hm, hs⟩ := safesUnion_props M st hinv c hc
      exact ⟨c, hb, hm, hs, Or.inr hc⟩
  obtain ⟨c, hcb, hcm, hcs, hcu⟩ := hc
  refine Finset.card_lt_card (Finset.ssubset_def.mpr ⟨?_, ?_⟩)
  · intro d hd
    obtain ⟨hdb, hdn⟩ := Finset.mem_sdiff.mp hd
    refine Finset.mem_sdiff.mpr ⟨hdb, fun hdu => hdn ?_⟩
    rcases Finset.mem_union.mp hdu with h1 | h1
    · exact Finset.mem_union.mpr (Or.inl (Finset.mem_union.mpr (Or.inl h1)))
    · exact Finset.mem_union.mpr (Or.inr (Finset.mem_union.mpr (Or.inl h1)))
  · intro hsub'
    have hcmem : c ∈ boardCells st.height st.width \
        (st.mines ∪ st.safes) := by
      refine Finset.mem_sdiff.mpr ⟨hcb, fun h => ?_⟩
      rcases Finset.mem_union.mp h with h1 | h1
      · exact hcm h1
      · exact hcs h1
    obtain ⟨-, hcn⟩ := Finset.mem_sdiff.mp (hsub' hcmem)
    refine hcn ?_
    rcases hcu with h1 | h1
    · exact Finset.mem_union.mpr (Or.inl (Finset.mem_union.mpr (Or.inr h1)))
    · exact Finset.mem_union.mpr (Or.inr (Finset.mem_union.mpr (Or.inr h1)))

/-- Every pass that reports new information strictly decreases the
termination measure. -/
theorem passMeasure_lt (M : Finset Cell) (st : AIState)
    (hinv : InvC M st) (hch : (passBody st).2 = true) :
    passMeasure (passBody st).1 < passMeasure st := by
  have hhw : boardCells (passBody st).1.height (passBody st).1.width =
      boardCells st.height st.width := by
    rw [passBody_height, passBody_width]
  unfold passMeasure
  rw [hhw]
  by_cases hmark :
      minesUnion st.knowledge ≠ ∅ ∨ safesUnion st.knowledge ≠ ∅
  · have ha := unclassified_lt M st hinv hmark
    have h2 : 2 ^ (boardCells st.height st.width).card -
        (cellSetsNE (passBody st).1.knowledge).card ≤
          2 ^ (boardCells st.height st.width).card :=
      Nat.sub_le _ _
    set a' := ((boardCells st.height st.width) \
      ((passBody st).1.mines ∪ (passBody st).1.safes)).card with ha'
    set a := ((boardCells st.height st.width) \
      (st.mines ∪ st.safes)).card with haa
    set K := 2 ^ (boardCells st.height st.width).card with hK
    have h1 : a' * (K + 1) ≤ (a - 1) * (K + 1) :=
      Nat.mul_le_mul_right _ (by omega)
    have h3 : (a - 1) * (K + 1) + (K + 1) = a * (K + 1) := by
      have hpos : a - 1 + 1 = a := by omega
      calc (a - 1) * (K + 1) + (K + 1) = ((a - 1) + 1) * (K + 1) := by ring
        _ = a * (K + 1) := by rw [hpos]
    omega
  · push_neg at hmark
    obtain ⟨hmu, hsu⟩ := hmark
    rcases passBody_true st hch with h1 | h1 | hbuf
    · exact absurd hmu h1
    · exact absurd hsu h1
    have hD := cellSetsNE_grows M st hinv hmu hsu hbuf
    have hDle := cellSetsNE_card_le M (passBody st).1
      (invC_passBody M st hinv)
    rw [passBody_height, passBody_width] at hDle
    have hsame : (passBody st).1.mines ∪ (passBody st).1.safes =
        st.mines ∪ st.safes := by
      rw [passBody_mines, passBody_safes, hmu, hsu]
      rw [Finset.union_empty, Finset.union_empty]
    rw [hsame]
    omega

/-- With the invariant, iterating passes reaches a pass with no new
information within `passMeasure` steps: the fueled loop returns. -/
theorem runLoop_terminates (M : Finset Cell) :
    ∀ n (st : AIState), InvC M st → passMeasure st ≤ n →
      ∃ st', runLoop (n + 1) st = some st' := by
  intro n
  induction n with
  | zero =>
    intro st hinv hle
    cases hch : (passBody st).2 with
    | false => exact ⟨(passBody st).1, by simp [runLoop, hch]⟩
    | true =>
      exfalso
      have := passMeasure_lt M st hinv hch
      omega
  | succ n ih =>
    intro st hinv hle
    cases hch : (passBody st).2 with
    | false => exact ⟨(passBody st).1, by simp [runLoop, hch]⟩
    | true =>
      have hlt := passMeasure_lt M st hinv hch
      obtain ⟨st', hst'⟩ := ih (passBody st).1
        (invC_passBody M st hinv) (by omega)
      refine ⟨st', ?_⟩
      have hstep : runLoop (n + 1 + 1) st =
          if (passBody st).2 = true then runLoop (n + 1) (passBody st).1
          else some (passBody st).1 := rfl
      rw [hstep, if_pos hch]
      exact hst'

/-- Claim C3: for every call `add_knowledge(cell, count)` made in a
state reachable by observations consistent with a finite board `M`,
with the new observation also consistent (in-bounds non-mine cell,
count from `nearby_mines`), the `while True` fixed-point loop
terminates: some finite fuel makes the fueled loop return. -/
theorem claim3_loop_terminates (M : Finset Cell) (st : AIState)
    (cell : Cell) (count : ℤ)
    (h : Reach (consistentObs M) st)
    (hobs : consistentObs M st cell count) :
    ∃ fuel st', add_knowledge fuel st cell count = some st' := by
  have hinv := invC_preAdd M st cell count (invC_of_reach M st h) hobs
  obtain ⟨st', hst'⟩ := runLoop_terminates M
    (passMeasure (preAdd st cell count)) (preAdd st cell count) hinv
    (le_refl _)
  exact ⟨passMeasure (preAdd st cell count) + 1, st', hst'⟩

/-- Claim C3 (witness): the call `(0,0)↦1` on a fresh 1×2 AI observing
the board with mine `(0,1)` terminates. -/
theorem claim3_witness :
    ∃ fuel st', add_knowledge fuel (initAI 1 2) (0, 0) 1 = some st' :=
  claim3_loop_terminates {(0, 1)} (initAI 1 2) (0, 0) 1
    (Reach.init 1 2) (by decide)

/-!
## Fidelity of the simultaneous marking update

Python iterates `for mine in mines: self.mark_mine(mine)` over a set in
unspecified order; the per-cell operations commute, so `markMines` (one
simultaneous update) is exactly the fold of the per-cell source
operation over any duplicate-free enumeration, and likewise for safes.
-/

theorem sentence_markMines_insert (c : Cell) (ms : Finset Cell)
    (s : Sentence) (hc : c ∉ ms) :
    Sentence.markMines ms (Sentence.mark_mine c s) =
      Sentence.markMines (insert c ms) s := by
  unfold Sentence.mark_mine Sentence.markMines
  by_cases hcs : c ∈ s.cells
  · rw [if_pos hcs]
    apply sentence_eq
    · show s.cells.erase c \ ms = s.cells \ insert c ms
      ext d
      simp only [Finset.mem_sdiff, Finset.mem_erase, Finset.mem_insert]
      constructor
      · rintro ⟨⟨hdc, hd⟩, hdm⟩
        exact ⟨hd, fun h => h.elim hdc hdm⟩
      · rintro ⟨hd, hdm⟩
        exact ⟨⟨fun h => hdm (Or.inl h), hd⟩, fun h => hdm (Or.inr h)⟩
    · show s.count - 1 - ((s.cells.erase c ∩ ms).card : ℤ) =
        s.count - ((s.cells ∩ insert c ms).card : ℤ)
      have h1 : s.cells.erase c ∩ ms = s.cells ∩ ms := by
        ext d
        simp only [Finset.mem_inter, Finset.mem_erase]
        constructor
        · rintro ⟨⟨-, hd⟩, hdm⟩
          exact ⟨hd, hdm⟩
        · rintro ⟨hd, hdm⟩
          exact ⟨⟨fun h => hc (h ▸ hdm), hd⟩, hdm⟩
      have h2 : s.cells ∩ insert c ms = insert c (s.cells ∩ ms) := by
        ext d
        simp only [Finset.mem_inter, Finset.mem_insert]
        constructor
        · rintro ⟨hd, h | h⟩
          · exact Or.inl h
          · exact Or.inr ⟨hd, h⟩
        · rintro (rfl | ⟨hd, h⟩)
          · exact ⟨hcs, Or.inl rfl⟩
          · exact ⟨hd, Or.inr h⟩
      have h3 : c ∉ s.cells ∩ ms := by
        simp only [Finset.mem_inter]
        rintro ⟨-, h⟩
        exact hc h
      rw [h1, h2, Finset.card_insert_of_not_mem h3]
      push_cast
      ring
  · rw [if_neg hcs]
    apply sentence_eq
    · show s.cells \ ms = s.cells \ insert c ms
      ext d
      simp only [Finset.mem_sdiff, Finset.mem_insert]
      constructor
      · rintro ⟨hd, hdm⟩
        exact ⟨hd, fun h => h.elim (fun hdc => hcs (hdc ▸ hd)) hdm⟩
      · rintro ⟨hd, hdm⟩
        exact ⟨hd, fun h => hdm (Or.inr h)⟩
    · show s.count - ((s.cells ∩ ms).card : ℤ) =
        s.count - ((s.cells ∩ insert c ms).card : ℤ)
      have h2 : s.cells ∩ insert c ms = s.cells ∩ ms := by
        ext d
        simp only [Finset.mem_inter, Finset.mem_insert]
        constructor
        · rintro ⟨hd, rfl | h⟩
          · exact absurd hd hcs
          · exact ⟨hd, h⟩
        · rintro ⟨hd, h⟩
          exact ⟨hd, Or.inr h⟩
      rw [h2]

theorem sentence_markSafes_insert (c : Cell) (ss : Finset Cell)
    (s : Sentence) :
    Sentence.markSafes ss (Sentence.mark_safe c s) =
      Sentence.markSafes (insert c ss) s := by
  unfold Sentence.mark_safe Sentence.markSafes
  by_cases hcs : c ∈ s.cells
  · rw [if_pos hcs]
    apply sentence_eq
    · show s.cells.erase c \ ss = s.cells \ insert c ss
      ext d
      simp only [Finset.mem_sdiff, Finset.mem_erase, Finset.mem_insert]
      constructor
      · rintro ⟨⟨hdc, hd⟩, hdm⟩
        exact ⟨hd, fun h => h.elim hdc hdm⟩
      · rintro ⟨hd, hdm⟩
        exact ⟨⟨fun h => hdm (Or.inl h), hd⟩, fun h => hdm (Or.inr h)⟩
    · rfl
  · rw [if_neg hcs]
    apply sentence_eq
    · show s.cells \ ss = s.cells \ insert c ss
      ext d
      simp only [Finset.mem_sdiff, Finset.mem_insert]
      constructor
      · rintro ⟨hd, hdm⟩
        exact ⟨hd, fun h => h.elim (fun hdc => hcs (hdc ▸ hd)) hdm⟩
      · rintro ⟨hd, hdm⟩
        exact ⟨hd, fun h => hdm (Or.inr h)⟩
    · rfl

theorem state_markMines_insert (st : AIState) (c : Cell)
    (ms : Finset Cell) (hc : c ∉ ms) :
    (st.mark_mine c).markMines ms = st.markMines (insert c ms) := by
  cases st with
  | mk h w mm mi sa kn =>
    simp only [AIState.mark_mine, AIState.markMines, List.map_map,
      AIState.mk.injEq, true_and, and_true]
    refine ⟨?_, ?_⟩
    · rw [Finset.insert_union, Finset.union_insert]
    · refine List.map_congr_left ?_
      intro s _
      exact sentence_markMines_insert c ms s hc

theorem state_markSafes_insert (st : AIState) (c : Cell)
    (ss : Finset Cell) :
    (st.mark_safe c).markSafes ss = st.markSafes (insert c ss) := by
  cases st with
  | mk h w mm mi sa kn =>
    simp only [AIState.mark_safe, AIState.markSafes, List.map_map,
      AIState.mk.injEq, true_and, and_true]
    refine ⟨?_, ?_⟩
    · rw [Finset.insert_union, Finset.union_insert]
    · refine List.map_congr_left ?_
      intro s _
      exact sentence_markSafes_insert c ss s

/-- Folding the source's per-cell `mark_mine` over any duplicate-free
enumeration of a cell set equals the simultaneous update used in
`passMarked`. -/
theorem markMines_eq_foldl (l : List Cell) (st : AIState)
    (hl : l.Nodup) :
    l.foldl AIState.mark_mine st = st.markMines l.toFinset := by
  induction l generalizing st with
  | nil => simpa using (markMines_empty st).symm
  | cons c cs ih =>
    simp only [List.foldl_cons, List.toFinset_cons]
    rw [ih (st.mark_mine c) (List.nodup_cons.mp hl).2]
    exact state_markMines_insert st c cs.toFinset
      (by simpa using (List.nodup_cons.mp hl).1)

/-- Folding the source's per-cell `mark_safe` over any enumeration of a
cell set equals the simultaneous update used in `passMarked`. -/
theorem markSafes_eq_foldl (l : List Cell) (st : AIState) :
    l.foldl AIState.mark_safe st = st.markSafes l.toFinset := by
  induction l generalizing st with
  | nil => simpa using (markSafes_empty st).symm
  | cons c cs ih =>
    simp only [List.foldl_cons, List.toFinset_cons]
    rw [ih (st.mark_safe c)]
    exact state_markSafes_insert st c cs.toFinset

end MS
